import Mathlib

/-!
Verification of the apricot submodular-selection package
(`src/apricot/facilityLocation.py`, `src/apricot/featureBased.py`).

Shallow embedding conventions:
* numpy `float64` arrays are embedded as `List ℚ` / `List (List ℚ)`
  (the claims under study are exact-arithmetic properties of the
  control flow and of max/min/sum formulas, not rounding properties);
* fallible Python code is embedded in `Except PyErr`;
* the priority queue lives in `base.py`, which is not part of the two
  source files, so it is modelled from the spec (§4.3);
* the progress bar (`tqdm`) and the `isinstance`/shape validation of
  raw Python objects are not representable and carry no arithmetic
  content; they are omitted.
-/

/-- Errors surfaced by the embedded Python code.  `nameError` models a
Python `NameError` (a read of an unbound local such as `gains` when the
dense loop ran zero times, or `gain` in `select_custom_next`);
`valueErrorNegative` models `ValueError("X cannot contain negative
values.")`; `argmaxEmpty` models `numpy.argmax` of an empty array;
`emptyQueue` models popping an exhausted priority queue; `keyError`
models removing an absent item (e.g. `pq.remove(None)`);
`fuelExhausted` is an artifact of the fuel-bounded embedding of the
`while True` loop — it is an error, never a wrong answer. -/
inductive PyErr where
  | nameError
  | valueErrorNegative
  | argmaxEmpty
  | emptyQueue
  | keyError
  | fuelExhausted
  deriving DecidableEq, Repr

/-- Scan step for `numpy.argmax`: keep the earliest index attaining the
running maximum (a later element replaces the incumbent only when it is
strictly greater). `j` is the index of the head of the remaining list,
`(bi, bv)` the incumbent index and value. -/
def npArgmaxAux : List ℚ → Nat → Nat × ℚ → Nat × ℚ
  | [], _, best => best
  | x :: xs, j, (bi, bv) =>
      npArgmaxAux xs (j + 1) (if bv < x then (j, x) else (bi, bv))

/-- Embeds `numpy.argmax` on a 1-D array: the first index attaining the
maximum; `none` on an empty array (numpy raises `ValueError` there). -/
def npArgmax : List ℚ → Option Nat
  | [] => none
  | x :: xs => some (npArgmaxAux xs 1 (0, x)).1

/-- Modelled from the spec (§4.3): the lazy priority queue of `base.py`
is not among the source files.  The queue is a list of
`(item index, gain)` entries; `insert_or_update` overwrites the entry
with the same index. -/
def pqAdd (q : List (Nat × ℚ)) (i : Nat) (g : ℚ) : List (Nat × ℚ) :=
  (i, g) :: q.filter (fun e => e.1 ≠ i)

/-- Modelled from the spec (§4.3): the entry `pop_max` returns — the
largest gain, deterministically the smallest item index among ties
(matching a binary heap keyed on `(-gain, index)`). -/
def pqBest : List (Nat × ℚ) → Option (Nat × ℚ)
  | [] => none
  | e :: es =>
      some (es.foldl
        (fun b x => if b.2 < x.2 ∨ (x.2 = b.2 ∧ x.1 < b.1) then x else b) e)

/-- Modelled from the spec (§4.3): `pop_max` removes and returns the
best entry; `none` models the `EmptyQueue` failure. -/
def pqPop (q : List (Nat × ℚ)) : Option ((Nat × ℚ) × List (Nat × ℚ)) :=
  (pqBest q).map (fun e => (e, q.erase e))

/-- Modelled from the spec (§4.3): `remove` deletes an entry by item
identity; removing an absent item fails (`KeyError`). -/
def pqRemove (q : List (Nat × ℚ)) (i : Nat) : Option (List (Nat × ℚ)) :=
  if q.any (fun e => e.1 = i) then some (q.filter (fun e => e.1 ≠ i)) else none

/-- The per-call selection state shared by
`FacilityLocationSelection.fit` (facilityLocation.py lines 128–133) and
`FeatureBasedSelection.fit` (featureBased.py lines 194–198): the
selected-item `mask`, the `ranking` in selection order, the lazy
priority queue, the dense phase's last-written `gains` local (dangling
after the loop, `none` when the loop ran zero times), and the
objective-specific aggregate `agg` (`current_values`, and for the
feature-based objective also `current_concave_values`). -/
structure GState (σ : Type) where
  mask : List Bool
  ranking : List Nat
  pq : List (Nat × ℚ)
  lastGains : Option (List ℚ)
  agg : σ
  deriving DecidableEq, Repr

/-- The dense kernels' shared shape (facilityLocation.py lines 19–28,
featureBased.py lines 20–62): fill a zero-initialised gain vector at
every unmasked index with the objective's gain, leave masked slots at
0, and take `numpy.argmax` of the full vector. -/
def denseSelect (n : Nat) (mask : List Bool) (g : Nat → ℚ) :
    List ℚ × Option Nat :=
  let gains := (List.range n).map (fun i => if mask.getD i false then 0 else g i)
  (gains, npArgmax gains)

/-- One dense warm-start round (facilityLocation.py lines 135–142,
featureBased.py lines 200–222): run the kernel, commit the returned
index, update the aggregate. -/
def denseRound (n : Nat) (denseGain : σ → Nat → ℚ) (update : σ → Nat → σ)
    (s : GState σ) : Except PyErr (GState σ) :=
  match denseSelect n s.mask (denseGain s.agg) with
  | (gains, some b) =>
      .ok { mask := s.mask.set b true, ranking := s.ranking ++ [b],
            pq := s.pq, lastGains := some gains, agg := update s.agg b }
  | (_, none) => .error .argmaxEmpty

/-- Queue seeding (facilityLocation.py lines 147–149, featureBased.py
lines 227–229): every still-unselected index is inserted with its entry
of the dense phase's last gain vector. -/
def seedList (gains : List ℚ) (mask : List Bool) : List (Nat × ℚ) :=
  (List.range gains.length).filterMap
    (fun i => if mask.getD i false then none else some (i, gains.getD i 0))

/-- The seeding step reads the local variable `gains`; when the dense
loop ran zero times that local was never assigned and Python raises
`NameError`. -/
def seed (s : GState σ) : Except PyErr (GState σ) :=
  match s.lastGains with
  | none => .error .nameError
  | some gains =>
      .ok { s with pq := seedList gains s.mask }

/-- The `while True` loop of a lazy round (facilityLocation.py lines
156–172, featureBased.py lines 235–251), fuel-bounded: pop the best
stale entry; if the incumbent `best_gain` already dominates it, reinsert
it, remove the incumbent from the queue and commit the incumbent;
otherwise recompute the popped item's gain, reinsert it with the fresh
key and update the incumbent on strict improvement. -/
def lazyLoop (gain : Nat → ℚ) :
    Nat → List (Nat × ℚ) → ℚ → Option Nat →
    Except PyErr (Nat × List (Nat × ℚ))
  | 0, _, _, _ => .error .fuelExhausted
  | fuel + 1, q, bestGain, bestIdx =>
      match pqPop q with
      | none => .error .emptyQueue
      | some ((i, prevGain), q1) =>
          if prevGain ≤ bestGain then
            match bestIdx with
            | none => .error .keyError
            | some b =>
                match pqRemove (pqAdd q1 i prevGain) b with
                | none => .error .keyError
                | some q2 => .ok (b, q2)
          else
            let g := gain i
            let q2 := pqAdd q1 i g
            if bestGain < g then lazyLoop gain fuel q2 g (some i)
            else lazyLoop gain fuel q2 bestGain bestIdx

/-- One lazy round (facilityLocation.py lines 152–176, featureBased.py
lines 231–256): run the inner loop from `best_gain = 0`,
`best_idx = None`, then commit the confirmed index. -/
def lazyRound (lazyGain : σ → Nat → ℚ) (update : σ → Nat → σ)
    (s : GState σ) : Except PyErr (GState σ) :=
  match lazyLoop (lazyGain s.agg) (s.pq.length + 1) s.pq 0 none with
  | .error e => .error e
  | .ok (b, q2) =>
      .ok { mask := s.mask.set b true, ranking := s.ranking ++ [b],
            pq := q2, lastGains := s.lastGains, agg := update s.agg b }

/-- A fixed number of selection rounds in sequence, stopping at the
first error (an uncaught Python exception aborts the call). -/
def runRounds (round : GState σ → Except PyErr (GState σ)) :
    Nat → GState σ → Except PyErr (GState σ)
  | 0, s => .ok s
  | m + 1, s => round s >>= runRounds round m

/-- The initial selection state (facilityLocation.py lines 128–133,
featureBased.py lines 194–198): all-zero mask, empty ranking, empty
queue, unassigned `gains` local. -/
def greedyInit (n : Nat) (agg0 : σ) : GState σ :=
  { mask := List.replicate n false, ranking := [], pq := [],
    lastGains := none, agg := agg0 }

/-- The two-phase greedy scheduler shared by both `fit` bodies
(facilityLocation.py lines 128–184, featureBased.py lines 194–264):
`g` dense warm-start rounds over `n` items, one queue seeding, then
`k - g` lazy rounds (`range(n_greedy_samples, n_samples)`). -/
def greedyRun (n : Nat) (denseGain lazyGain : σ → Nat → ℚ)
    (update : σ → Nat → σ) (agg0 : σ) (k g : Nat) :
    Except PyErr (GState σ) :=
  runRounds (denseRound n denseGain update) g (greedyInit n agg0) >>= seed >>=
    runRounds (lazyRound lazyGain update) (k - g)

/-! ## Facility location (facilityLocation.py) -/

/-- Column `i` of the similarity matrix, `X_pairwise[:, idx]`. -/
def flCol (S : List (List ℚ)) (i : Nat) : List ℚ :=
  S.map (fun row => row.getD i 0)

/-- The facility-location gain of item `i` (facilityLocation.py lines
25–26 and identically lines 165–166):
`(numpy.maximum(X[:, idx], current_values) - current_values).sum()`. -/
def flGain (S : List (List ℚ)) (cv : List ℚ) (i : Nat) : ℚ :=
  (List.zipWith (fun a c => max a c - c) (flCol S i) cv).sum

/-- The facility-location aggregate update (facilityLocation.py lines
142 and 176): `numpy.maximum(X_pairwise[:, best_idx], current_values)`. -/
def flUpdate (S : List (List ℚ)) (cv : List ℚ) (b : Nat) : List ℚ :=
  List.zipWith max (flCol S b) cv

/-- The dense facility-location kernel `select_next`
(facilityLocation.py lines 19–28). -/
def select_next (S : List (List ℚ)) (cv : List ℚ) (mask : List Bool) :
    List ℚ × Option Nat :=
  denseSelect S.length mask (flGain S cv)

/-- The body of `FacilityLocationSelection.fit` (facilityLocation.py
lines 128–185) on an already-preprocessed pairwise matrix `S`,
returning the full final state. -/
def flRun (S : List (List ℚ)) (k g : Nat) : Except PyErr (GState (List ℚ)) :=
  greedyRun S.length (flGain S) (flGain S) (flUpdate S)
    (List.replicate S.length 0) k g

/-- `FacilityLocationSelection.fit` restricted to its observable output
`self.ranking` (facilityLocation.py line 184). -/
def flFitPairwise (S : List (List ℚ)) (k g : Nat) :
    Except PyErr (List Nat) :=
  (flRun S k g).map (fun s => s.ranking)

/-! ## Feature based (featureBased.py) -/

/-- Row `i` of the feature matrix, `X[idx]`. -/
def fbRow (X : List (List ℚ)) (i : Nat) : List ℚ :=
  X.getD i []

/-- The feature dimensionality `d = X.shape[1]`. -/
def fbD (X : List (List ℚ)) : Nat :=
  (X.getD 0 []).length

/-- The feature-based aggregate: `current_values` paired with
`current_concave_values`, both of length `d` and initialised to zeros
(featureBased.py lines 197–198). -/
def fbAgg0 (X : List (List ℚ)) : List ℚ × List ℚ :=
  (List.replicate (fbD X) 0, List.replicate (fbD X) 0)

/-- The feature-based gain of item `i` under the concave function
`phi`: `(phi(current_values + X[idx]) - current_concave_values).sum()`.
This is the formula of the dense kernels `select_sqrt_next`,
`select_log_next` and `select_inv_next` (featureBased.py lines 26–27,
37–38, 48–49, with `phi` the respective `concave_func` of lines
142–148) and of every lazy recomputation (lines 244–245). -/
def fbPhiGain (phi : ℚ → ℚ) (X : List (List ℚ))
    (agg : List ℚ × List ℚ) (i : Nat) : ℚ :=
  (List.zipWith (fun a c => a - c)
    ((List.zipWith (fun c x => c + x) agg.1 (fbRow X i)).map phi)
    agg.2).sum

/-- The feature-based aggregate update (featureBased.py lines 221–222
and 255–256): `current_values += X[best_idx]` and
`current_concave_values = self.concave_func(current_values)`. -/
def fbUpdate (phi : ℚ → ℚ) (X : List (List ℚ))
    (agg : List ℚ × List ℚ) (b : Nat) : List ℚ × List ℚ :=
  let cv := List.zipWith (fun c x => c + x) agg.1 (fbRow X b)
  (cv, cv.map phi)

/-- The gain written by the dense kernel `select_min_next`
(featureBased.py lines 59–60):
`(numpy.fmin(current_values, X[idx]) - current_concave_values).sum()`.
Note the kernel takes the pointwise minimum of the aggregate and the
candidate row; it neither adds the candidate row to the aggregate nor
caps at one. -/
def fbMinDenseGain (X : List (List ℚ)) (agg : List ℚ × List ℚ)
    (i : Nat) : ℚ :=
  (List.zipWith (fun a c => a - c)
    (List.zipWith min agg.1 (fbRow X i)) agg.2).sum

/-- The `'min'` concave function (featureBased.py line 146):
`numpy.fmin(X, numpy.ones_like(X))` pointwise. -/
def phiMin (x : ℚ) : ℚ :=
  min x 1

/-- The dense kernel `select_min_next` (featureBased.py lines 53–62). -/
def select_min_next (X : List (List ℚ)) (cv ccv : List ℚ)
    (mask : List Bool) : List ℚ × Option Nat :=
  denseSelect X.length mask (fbMinDenseGain X (cv, ccv))

/-- The negative-entry validation of `FeatureBasedSelection.fit`
(featureBased.py lines 185–186): `numpy.min(X) < 0.0`. -/
def fbHasNeg (X : List (List ℚ)) : Bool :=
  X.any (fun row => row.any (fun x => x < 0))

/-- The body of `FeatureBasedSelection.fit` (featureBased.py lines
181–265) for the `'sqrt'`/`'log'`/`'inverse'` branches, whose dense
kernel computes the same formula as the lazy recomputation, with `phi`
the configured concave function; returns the full final state. -/
def fbRunPhi (phi : ℚ → ℚ) (X : List (List ℚ)) (k g : Nat) :
    Except PyErr (GState (List ℚ × List ℚ)) :=
  if fbHasNeg X then .error .valueErrorNegative
  else greedyRun X.length (fbPhiGain phi X) (fbPhiGain phi X)
    (fbUpdate phi X) (fbAgg0 X) k g

/-- `FeatureBasedSelection.fit` for the `'sqrt'`/`'log'`/`'inverse'`
branches, restricted to its observable output `self.ranking`
(featureBased.py line 264). -/
def fbFitPhi (phi : ℚ → ℚ) (X : List (List ℚ)) (k g : Nat) :
    Except PyErr (List Nat) :=
  (fbRunPhi phi X k g).map (fun s => s.ranking)

/-- The body of `FeatureBasedSelection.fit` for the `'min'` branch: the
dense rounds use `select_min_next`'s gain, the lazy rounds use
`concave_func = fmin(., 1)` on `current_values + X[idx]`. -/
def fbRunMin (X : List (List ℚ)) (k g : Nat) :
    Except PyErr (GState (List ℚ × List ℚ)) :=
  if fbHasNeg X then .error .valueErrorNegative
  else greedyRun X.length (fbMinDenseGain X) (fbPhiGain phiMin X)
    (fbUpdate phiMin X) (fbAgg0 X) k g

/-- `FeatureBasedSelection.fit` for the `'min'` branch, restricted to
`self.ranking`. -/
def fbFitMin (X : List (List ℚ)) (k g : Nat) :
    Except PyErr (List Nat) :=
  (fbRunMin X k g).map (fun s => s.ranking)

/-- The loop of `select_custom_next` (featureBased.py lines 69–78):
walk the indices in order, skip masked ones, write the gain into the
gain vector, and on a strict improvement over `best_gain` execute
`best_gain = gain` — which reads the unbound local `gain` and raises
`NameError`. -/
def selectCustomAux (gainF : Nat → ℚ) (mask : List Bool) :
    List Nat → List ℚ → ℚ → Int → Except PyErr (List ℚ × Int)
  | [], gains, _, bestIdx => .ok (gains, bestIdx)
  | i :: rest, gains, bestGain, bestIdx =>
      if mask.getD i false then
        selectCustomAux gainF mask rest gains bestGain bestIdx
      else
        let gi := gainF i
        if bestGain < gi then .error .nameError
        else selectCustomAux gainF mask rest (gains.set i gi) bestGain bestIdx

/-- The helper `select_custom_next` (featureBased.py lines 64–80), used
when a caller-supplied concave function is configured: `best_gain = 0`,
`best_idx = -1`, gain vector zero-initialised by the caller (line 201). -/
def select_custom_next (X : List (List ℚ)) (phi : ℚ → ℚ)
    (cv ccv : List ℚ) (mask : List Bool) : Except PyErr (List ℚ × Int) :=
  selectCustomAux (fbPhiGain phi X (cv, ccv)) mask
    (List.range X.length) (List.replicate X.length 0) 0 (-1)

/-! ## Facility-location pairwise kernels (facilityLocation.py lines 72–86, 124–126) -/

/-- The row dot product underlying `numpy.dot(X, X.T)`. -/
def dotRow (r1 r2 : List ℚ) : ℚ :=
  (List.zipWith (fun a b => a * b) r1 r2).sum

/-- The helper `norm` (facilityLocation.py line 75): the per-row sum of
squares `numpy.sum(x*x, axis=1)` (no square root is taken). -/
def rowNorm (r : List ℚ) : ℚ :=
  (r.map (fun x => x * x)).sum

/-- The `'cosine'` pairwise kernel (facilityLocation.py line 80):
`numpy.dot(X, X.T) / (norm(X).dot(norm(X).T))`, i.e. entrywise
`⟨x_i, x_j⟩ / (‖x_i‖² · ‖x_j‖²)` with `norm` the sum of squares.
Caveat: ℚ division is total (`x / 0 = 0`) whereas numpy produces
`nan`/`inf` entries whenever some row has zero norm, so this embedding
is faithful only on inputs all of whose rows have nonzero norm;
every statement made about this kernel carries that hypothesis. -/
def cosineKernel (X : List (List ℚ)) : List (List ℚ) :=
  X.map (fun ri => X.map (fun rj => dotRow ri rj / (rowNorm ri * rowNorm rj)))

/-- The `'euclidean'` pairwise kernel (facilityLocation.py line 82):
`-(-2 * numpy.dot(X, X.T) + norm(X)).T + norm(X)`.  With `G = X Xᵀ` and
the column vector `N` of row norms broadcast over columns, the `(i,j)`
entry of `-2G + N` is `-2⟨x_j, x_i⟩ + N_j` after the transpose, so the
full expression's `(i,j)` entry is `2⟨x_i, x_j⟩ + N_i - N_j` (using
commutativity of the row dot product). -/
def euclideanKernel (X : List (List ℚ)) : List (List ℚ)  :=
  X.map (fun ri => X.map (fun rj => 2 * dotRow ri rj + rowNorm ri - rowNorm rj))

/-- `numpy.fill_diagonal(X_pairwise, 0)` (facilityLocation.py line
126). -/
def fillDiagonal (M : List (List ℚ)) : List (List ℚ) :=
  M.enum.map (fun e => e.2.set e.1 0)

/-- Entry accessor for an embedded matrix. -/
def entry (M : List (List ℚ)) (i j : Nat) : ℚ :=
  (M.getD i []).getD j 0

/-- The pairwise matrix used for selection under the `'cosine'` kernel:
kernel output with the diagonal zeroed (facilityLocation.py lines
124–126). -/
def preprocessCosine (X : List (List ℚ)) : List (List ℚ) :=
  fillDiagonal (cosineKernel X)

/-- The pairwise matrix used for selection under the `'euclidean'`
kernel: kernel output with the diagonal zeroed (facilityLocation.py
lines 124–126). -/
def preprocessEuclidean (X : List (List ℚ)) : List (List ℚ) :=
  fillDiagonal (euclideanKernel X)

/-! ## Basic list lemmas -/

lemma getD_set_self {α : Type} (l : List α) (b : Nat) (a d : α)
    (h : b < l.length) : (l.set b a).getD b d = a := by
  rw [List.getD_eq_getElem?_getD, List.getElem?_set_self h]
  rfl

lemma getD_set_ne {α : Type} (l : List α) (b i : Nat) (a d : α)
    (h : b ≠ i) : (l.set b a).getD i d = l.getD i d := by
  rw [List.getD_eq_getElem?_getD, List.getElem?_set_ne h,
    ← List.getD_eq_getElem?_getD]

lemma getD_range_map {α : Type} (f : Nat → α) (n i : Nat) (d : α)
    (h : i < n) : (((List.range n).map f).getD i d) = f i := by
  rw [List.getD_eq_getElem?_getD, List.getElem?_map, List.getElem?_range h]
  rfl

lemma getD_map_rows (X : List (List ℚ)) (f : List ℚ → ℚ) (j : Nat)
    (h : j < X.length) : (X.map f).getD j 0 = f (X.getD j []) := by
  rw [List.getD_eq_getElem?_getD, List.getElem?_map,
    List.getElem?_eq_getElem (by simpa using h),
    List.getD_eq_getElem?_getD, List.getElem?_eq_getElem h]
  rfl

lemma getD_oob {α : Type} (l : List α) (i : Nat) (d : α)
    (h : l.length ≤ i) : l.getD i d = d := by
  rw [List.getD_eq_getElem?_getD, List.getElem?_eq_none (by simpa using h)]
  rfl

/-- A list of naturals below `n` without duplicates has at most `n`
entries. -/
lemma nodup_length_le (r : List Nat) (n : Nat) (h : ∀ i ∈ r, i < n)
    (hd : r.Nodup) : r.length ≤ n := by
  have hsub : r.toFinset ⊆ Finset.range n := by
    intro i hi
    rw [List.mem_toFinset] at hi
    exact Finset.mem_range.mpr (h i hi)
  have := Finset.card_le_card hsub
  rwa [List.toFinset_card_of_nodup hd, Finset.card_range] at this

/-! ## The argmax characterization -/

/-- The scan of `npArgmaxAux` either keeps the incumbent, in which case
no element of the remaining list exceeds the incumbent value, or lands
on the first element of the remaining list that reaches the list's
running maximum strictly above the incumbent value. -/
lemma npArgmaxAux_spec (l : List ℚ) : ∀ (j bi : Nat) (bv : ℚ),
    (npArgmaxAux l j (bi, bv) = (bi, bv) ∧ ∀ t < l.length, l.getD t 0 ≤ bv)
    ∨ (∃ m < l.length, (npArgmaxAux l j (bi, bv)).1 = j + m ∧
        (npArgmaxAux l j (bi, bv)).2 = l.getD m 0 ∧ bv < l.getD m 0 ∧
        (∀ t < l.length, l.getD t 0 ≤ l.getD m 0) ∧
        (∀ t < m, l.getD t 0 < l.getD m 0)) := by
  induction l with
  | nil =>
    intro j bi bv
    exact Or.inl ⟨rfl, by intro t ht; simp at ht⟩
  | cons x xs ih =>
    intro j bi bv
    by_cases hx : bv < x
    · have hrw : npArgmaxAux (x :: xs) j (bi, bv) =
          npArgmaxAux xs (j + 1) (j, x) := by
        simp [npArgmaxAux, hx]
      rcases ih (j + 1) j x with ⟨heq, hle⟩ | ⟨m, hm, h1, h2, h3, h4, h5⟩
      · refine Or.inr ⟨0, by simp, ?_, ?_, by simpa using hx, ?_, ?_⟩
        · rw [hrw, heq]; simp
        · rw [hrw, heq]; simp
        · intro t ht
          cases t with
          | zero => simp
          | succ t =>
            rw [List.getD_cons_succ, List.getD_cons_zero]
            exact hle t (by simpa using ht)
        · intro t ht; omega
      · refine Or.inr ⟨m + 1, by simpa using hm, ?_, ?_, ?_, ?_, ?_⟩
        · rw [hrw, h1]; omega
        · rw [hrw, h2, List.getD_cons_succ]
        · rw [List.getD_cons_succ]; exact lt_trans hx h3
        · intro t ht
          cases t with
          | zero =>
            rw [List.getD_cons_zero, List.getD_cons_succ]
            exact le_of_lt h3
          | succ t =>
            rw [List.getD_cons_succ, List.getD_cons_succ]
            exact h4 t (by simpa using ht)
        · intro t ht
          cases t with
          | zero =>
            rw [List.getD_cons_zero, List.getD_cons_succ]
            exact h3
          | succ t =>
            rw [List.getD_cons_succ, List.getD_cons_succ]
            exact h5 t (by omega)
    · have hrw : npArgmaxAux (x :: xs) j (bi, bv) =
          npArgmaxAux xs (j + 1) (bi, bv) := by
        simp [npArgmaxAux, hx]
      rcases ih (j + 1) bi bv with ⟨heq, hle⟩ | ⟨m, hm, h1, h2, h3, h4, h5⟩
      · refine Or.inl ⟨by rw [hrw, heq], ?_⟩
        intro t ht
        cases t with
        | zero => rw [List.getD_cons_zero]; exact le_of_not_lt hx
        | succ t =>
          rw [List.getD_cons_succ]
          exact hle t (by simpa using ht)
      · refine Or.inr ⟨m + 1, by simpa using hm, ?_, ?_, ?_, ?_, ?_⟩
        · rw [hrw, h1]; omega
        · rw [hrw, h2, List.getD_cons_succ]
        · rw [List.getD_cons_succ]; exact h3
        · intro t ht
          cases t with
          | zero =>
            rw [List.getD_cons_zero, List.getD_cons_succ]
            exact le_of_lt (lt_of_le_of_lt (le_of_not_lt hx) h3)
          | succ t =>
            rw [List.getD_cons_succ, List.getD_cons_succ]
            exact h4 t (by simpa using ht)
        · intro t ht
          cases t with
          | zero =>
            rw [List.getD_cons_zero, List.getD_cons_succ]
            exact lt_of_le_of_lt (le_of_not_lt hx) h3
          | succ t =>
            rw [List.getD_cons_succ, List.getD_cons_succ]
            exact h5 t (by omega)

/-- `numpy.argmax` of a nonempty array returns the first index
attaining the maximum. -/
lemma npArgmax_spec (l : List ℚ) (h : l ≠ []) :
    ∃ b, npArgmax l = some b ∧ b < l.length ∧
      (∀ t < l.length, l.getD t 0 ≤ l.getD b 0) ∧
      (∀ t < b, l.getD t 0 < l.getD b 0) := by
  match l with
  | x :: xs =>
    rcases npArgmaxAux_spec xs 1 0 x with ⟨heq, hle⟩ | ⟨m, hm, h1, h2, h3, h4, h5⟩
    · refine ⟨0, by simp [npArgmax, heq], by simp, ?_, by omega⟩
      intro t ht
      cases t with
      | zero => simp
      | succ t =>
        rw [List.getD_cons_succ, List.getD_cons_zero]
        exact hle t (by simpa using ht)
    · refine ⟨1 + m, by simp [npArgmax, h1], by simp only [List.length_cons]; omega, ?_, ?_⟩
      · have hb : (x :: xs).getD (1 + m) 0 = xs.getD m 0 := by
          rw [Nat.add_comm, List.getD_cons_succ]
        intro t ht
        rw [hb]
        cases t with
        | zero => rw [List.getD_cons_zero]; exact le_of_lt h3
        | succ t =>
          rw [List.getD_cons_succ]
          exact h4 t (by simpa using ht)
      · intro t ht
        have hb : (x :: xs).getD (1 + m) 0 = xs.getD m 0 := by
          rw [Nat.add_comm, List.getD_cons_succ]
        rw [hb]
        cases t with
        | zero => rw [List.getD_cons_zero]; exact h3
        | succ t =>
          rw [List.getD_cons_succ]
          exact h5 t (by omega)

/-- `numpy.argmax` succeeds exactly on nonempty arrays. -/
lemma npArgmax_isSome (l : List ℚ) (h : l ≠ []) : ∃ b, npArgmax l = some b := by
  rcases npArgmax_spec l h with ⟨b, hb, _⟩
  exact ⟨b, hb⟩

/-! ## Dense-kernel lemmas -/

/-- The gain vector a dense kernel writes has one slot per item. -/
lemma denseSelect_fst_length (n : Nat) (mask : List Bool) (g : Nat → ℚ) :
    (denseSelect n mask g).1.length = n := by
  simp [denseSelect]

/-- The gain vector holds 0 at masked slots and the objective's gain at
unmasked slots. -/
lemma denseSelect_fst_getD (n : Nat) (mask : List Bool) (g : Nat → ℚ)
    (i : Nat) (h : i < n) :
    (denseSelect n mask g).1.getD i 0 =
      if mask.getD i false then 0 else g i := by
  simp only [denseSelect]
  exact getD_range_map _ n i 0 h

/-- On a nonempty item set the dense kernel returns an index below `n`. -/
lemma denseSelect_snd_spec (n : Nat) (mask : List Bool) (g : Nat → ℚ)
    (h : 0 < n) :
    ∃ b, (denseSelect n mask g).2 = some b ∧ b < n := by
  have hne : (denseSelect n mask g).1 ≠ [] := by
    intro hc
    have := denseSelect_fst_length n mask g
    rw [hc] at this
    simp at this
    omega
  rcases npArgmax_spec _ hne with ⟨b, hb, hlt, _, _⟩
  refine ⟨b, ?_, ?_⟩
  · simpa [denseSelect] using hb
  · rwa [denseSelect_fst_length] at hlt

/-- Whenever some unmasked item has strictly positive gain, the dense
kernel's argmax lands on an unmasked item: it attains the maximum gain
among unmasked items and no smaller unmasked index does. -/
lemma denseSelect_pos_spec (n : Nat) (mask : List Bool) (g : Nat → ℚ)
    (i0 : Nat) (h1 : i0 < n) (h2 : mask.getD i0 false = false)
    (h3 : 0 < g i0) :
    ∃ b, (denseSelect n mask g).2 = some b ∧ b < n ∧
      mask.getD b false = false ∧
      (∀ j < n, mask.getD j false = false → g j ≤ g b) ∧
      (∀ j < b, mask.getD j false = false → g j < g b) := by
  have hne : (denseSelect n mask g).1 ≠ [] := by
    intro hc
    have := denseSelect_fst_length n mask g
    rw [hc] at this
    simp at this
    omega
  rcases npArgmax_spec _ hne with ⟨b, hb, hlt, hmax, hfirst⟩
  rw [denseSelect_fst_length] at hlt
  have hval : ∀ t, t < n → (denseSelect n mask g).1.getD t 0 =
      if mask.getD t false then 0 else g t :=
    fun t ht => denseSelect_fst_getD n mask g t ht
  have hi0 : (denseSelect n mask g).1.getD i0 0 = g i0 := by
    rw [hval i0 h1, h2]
    simp
  have hbpos : 0 < (denseSelect n mask g).1.getD b 0 := by
    have := hmax i0 (by rwa [denseSelect_fst_length])
    rw [hi0] at this
    exact lt_of_lt_of_le h3 this
  have hbmask : mask.getD b false = false := by
    by_contra hc
    rw [hval b hlt, eq_true_of_ne_false hc] at hbpos
    simp at hbpos
  have hbval : (denseSelect n mask g).1.getD b 0 = g b := by
    rw [hval b hlt, hbmask]
    simp
  refine ⟨b, by simpa [denseSelect] using hb, hlt, hbmask, ?_, ?_⟩
  · intro j hj hjm
    have := hmax j (by rwa [denseSelect_fst_length])
    rw [hbval, hval j hj, hjm] at this
    simpa using this
  · intro j hj hjm
    have := hfirst j hj
    rw [hbval, hval j (lt_trans hj hlt), hjm] at this
    simpa using this

/-! ## Priority-queue lemmas -/

lemma pqBest_mem (q : List (Nat × ℚ)) (e : Nat × ℚ)
    (h : pqBest q = some e) : e ∈ q := by
  match q with
  | [] => simp [pqBest] at h
  | x :: xs =>
    simp only [pqBest, Option.some_inj] at h
    have key : ∀ (ys : List (Nat × ℚ)) (b : Nat × ℚ),
        (ys.foldl (fun b x =>
          if b.2 < x.2 ∨ (x.2 = b.2 ∧ x.1 < b.1) then x else b) b) = b ∨
        (ys.foldl (fun b x =>
          if b.2 < x.2 ∨ (x.2 = b.2 ∧ x.1 < b.1) then x else b) b) ∈ ys := by
      intro ys
      induction ys with
      | nil => intro b; exact Or.inl rfl
      | cons y ys ih =>
        intro b
        simp only [List.foldl_cons]
        rcases ih (if b.2 < y.2 ∨ (y.2 = b.2 ∧ y.1 < b.1) then y else b) with
          hcase | hcase
        · rw [hcase]
          by_cases hy : b.2 < y.2 ∨ (y.2 = b.2 ∧ y.1 < b.1)
          · rw [if_pos hy]; exact Or.inr (List.mem_cons_self y ys)
          · rw [if_neg hy]; exact Or.inl rfl
        · exact Or.inr (List.mem_cons_of_mem y hcase)
    rcases key xs x with hcase | hcase
    · rw [← h]; rw [hcase]; exact List.mem_cons_self x xs
    · rw [← h]; exact List.mem_cons_of_mem x hcase

lemma pqPop_mem (q q1 : List (Nat × ℚ)) (e : Nat × ℚ)
    (h : pqPop q = some (e, q1)) : e ∈ q ∧ ∀ x ∈ q1, x ∈ q := by
  simp only [pqPop, Option.map_eq_some'] at h
  rcases h with ⟨e', he', heq⟩
  rw [Prod.mk.injEq] at heq
  rcases heq with ⟨h1, h2⟩
  subst h1
  subst h2
  exact ⟨pqBest_mem q e' he', fun x hx => List.erase_subset _ _ hx⟩

lemma pqAdd_mem (q : List (Nat × ℚ)) (i : Nat) (g : ℚ) (e : Nat × ℚ)
    (h : e ∈ pqAdd q i g) : e = (i, g) ∨ e ∈ q := by
  simp only [pqAdd, List.mem_cons] at h
  rcases h with h | h
  · exact Or.inl h
  · exact Or.inr (List.mem_filter.mp h).1

lemma pqRemove_mem (q q2 : List (Nat × ℚ)) (b : Nat)
    (h : pqRemove q b = some q2) : ∀ x ∈ q2, x ∈ q := by
  simp only [pqRemove] at h
  by_cases hc : q.any (fun e => e.1 = b)
  · rw [if_pos hc, Option.some_inj] at h
    subst h
    exact fun x hx => (List.mem_filter.mp hx).1
  · rw [if_neg hc] at h
    exact absurd h (by simp)

/-! ## Lazy-loop lemmas -/

/-- Unfolding equation for the inner loop when the pop fails. -/
lemma lazyLoop_succ_none (gain : Nat → ℚ) (fuel : Nat)
    (q : List (Nat × ℚ)) (bg : ℚ) (bi : Option Nat)
    (hpop : pqPop q = none) :
    lazyLoop gain (fuel + 1) q bg bi = .error .emptyQueue := by
  rw [lazyLoop, hpop]

/-- Unfolding equation for the inner loop when the pop succeeds. -/
lemma lazyLoop_succ_pop (gain : Nat → ℚ) (fuel : Nat)
    (q : List (Nat × ℚ)) (bg : ℚ) (bi : Option Nat) (i : Nat) (pg : ℚ)
    (q1 : List (Nat × ℚ)) (hpop : pqPop q = some ((i, pg), q1)) :
    lazyLoop gain (fuel + 1) q bg bi =
      if pg ≤ bg then
        match bi with
        | none => .error .keyError
        | some b =>
            match pqRemove (pqAdd q1 i pg) b with
            | none => .error .keyError
            | some q2 => .ok (b, q2)
      else if bg < gain i then
        lazyLoop gain fuel (pqAdd q1 i (gain i)) (gain i) (some i)
      else lazyLoop gain fuel (pqAdd q1 i (gain i)) bg bi := by
  rw [lazyLoop, hpop]

/-- Index closure of the inner lazy loop: the confirmed index and all
surviving queue entries are drawn from the incoming queue's indices and
the incumbent. -/
lemma lazyLoop_closure (gain : Nat → ℚ) (T : Nat → Prop) :
    ∀ (fuel : Nat) (q : List (Nat × ℚ)) (bg : ℚ) (bi : Option Nat)
      (b : Nat) (q2 : List (Nat × ℚ)),
      (∀ e ∈ q, T e.1) → (∀ b0, bi = some b0 → T b0) →
      lazyLoop gain fuel q bg bi = .ok (b, q2) →
      T b ∧ ∀ e ∈ q2, T e.1 := by
  intro fuel
  induction fuel with
  | zero => intro q bg bi b q2 _ _ h; simp [lazyLoop] at h
  | succ fuel ih =>
    intro q bg bi b q2 hq hbi h
    match hpop : pqPop q with
    | none =>
      rw [lazyLoop_succ_none gain fuel q bg bi hpop] at h
      simp at h
    | some ((i, pg), q1) =>
      rw [lazyLoop_succ_pop gain fuel q bg bi i pg q1 hpop] at h
      rcases pqPop_mem q q1 (i, pg) hpop with ⟨hiq, hq1⟩
      have hTi : T i := hq _ hiq
      have hq1T : ∀ e ∈ q1, T e.1 := fun e he => hq _ (hq1 e he)
      by_cases hbr : pg ≤ bg
      · rw [if_pos hbr] at h
        split at h
        · exact absurd h (by simp)
        · rename_i b0
          split at h
          · exact absurd h (by simp)
          · rename_i q3 hrem
            simp only [Except.ok.injEq, Prod.mk.injEq] at h
            rcases h with ⟨hb, hq2⟩
            subst hb
            subst hq2
            refine ⟨hbi _ rfl, ?_⟩
            intro e he
            rcases pqAdd_mem q1 i pg e (pqRemove_mem _ _ _ hrem e he) with
              he' | he'
            · rw [he']; exact hTi
            · exact hq1T e he'
      · rw [if_neg hbr] at h
        have hadd : ∀ e ∈ pqAdd q1 i (gain i), T e.1 := by
          intro e he
          rcases pqAdd_mem q1 i (gain i) e he with he' | he'
          · rw [he']; exact hTi
          · exact hq1T e he'
        by_cases himp : bg < gain i
        · rw [if_pos himp] at h
          exact ih (pqAdd q1 i (gain i)) (gain i) (some i) b q2 hadd
            (fun b0 hb0 => by
              rw [Option.some_inj] at hb0
              rw [← hb0]; exact hTi) h
        · rw [if_neg himp] at h
          exact ih (pqAdd q1 i (gain i)) bg bi b q2 hadd hbi h

/-- The incumbent invariant of the inner loop: either no incumbent and
`best_gain = 0`, or the incumbent's freshly recomputed gain equals
`best_gain` and is strictly positive.  A confirmed index therefore has
strictly positive recomputed gain. -/
lemma lazyLoop_pos (gain : Nat → ℚ) :
    ∀ (fuel : Nat) (q : List (Nat × ℚ)) (bg : ℚ) (bi : Option Nat)
      (b : Nat) (q2 : List (Nat × ℚ)),
      ((bi = none ∧ bg = 0) ∨
        (∃ b0, bi = some b0 ∧ bg = gain b0 ∧ 0 < bg)) →
      lazyLoop gain fuel q bg bi = .ok (b, q2) →
      0 < gain b := by
  intro fuel
  induction fuel with
  | zero => intro q bg bi b q2 _ h; simp [lazyLoop] at h
  | succ fuel ih =>
    intro q bg bi b q2 hinv h
    match hpop : pqPop q with
    | none =>
      rw [lazyLoop_succ_none gain fuel q bg bi hpop] at h
      simp at h
    | some ((i, pg), q1) =>
      rw [lazyLoop_succ_pop gain fuel q bg bi i pg q1 hpop] at h
      by_cases hbr : pg ≤ bg
      · rw [if_pos hbr] at h
        split at h
        · exact absurd h (by simp)
        · rename_i b0
          split at h
          · exact absurd h (by simp)
          · rename_i q3 hrem
            simp only [Except.ok.injEq, Prod.mk.injEq] at h
            rcases h with ⟨hb, _⟩
            subst hb
            rcases hinv with ⟨hc, _⟩ | ⟨b1, hb1, hg, hpos⟩
            · exact absurd hc (by simp)
            · rw [Option.some_inj] at hb1
              subst hb1
              rw [hg] at hpos
              exact hpos
      · rw [if_neg hbr] at h
        have hbg0 : 0 ≤ bg := by
          rcases hinv with ⟨_, hc⟩ | ⟨b1, _, _, hpos⟩
          · rw [hc]
          · exact le_of_lt hpos
        by_cases himp : bg < gain i
        · rw [if_pos himp] at h
          exact ih (pqAdd q1 i (gain i)) (gain i) (some i) b q2
            (Or.inr ⟨i, rfl, rfl, lt_of_le_of_lt hbg0 himp⟩) h
        · rw [if_neg himp] at h
          exact ih (pqAdd q1 i (gain i)) bg bi b q2 hinv h

/-- When every queued candidate's freshly recomputed gain is
non-positive, the inner loop started from `best_gain = 0`,
`best_idx = None` never confirms an item: it fails. -/
lemma lazyLoop_nonpos (gain : Nat → ℚ) :
    ∀ (fuel : Nat) (q : List (Nat × ℚ)),
      (∀ e ∈ q, gain e.1 ≤ 0) →
      ∃ er, lazyLoop gain fuel q 0 none = .error er := by
  intro fuel
  induction fuel with
  | zero => intro q _; exact ⟨.fuelExhausted, rfl⟩
  | succ fuel ih =>
    intro q hq
    match hpop : pqPop q with
    | none =>
      exact ⟨.emptyQueue, lazyLoop_succ_none gain fuel q 0 none hpop⟩
    | some ((i, pg), q1) =>
      rw [lazyLoop_succ_pop gain fuel q 0 none i pg q1 hpop]
      rcases pqPop_mem q q1 (i, pg) hpop with ⟨hiq, hq1⟩
      by_cases hbr : pg ≤ 0
      · rw [if_pos hbr]
        exact ⟨.keyError, rfl⟩
      · rw [if_neg hbr]
        have hgi : gain i ≤ 0 := hq _ hiq
        rw [if_neg (by exact not_lt.mpr hgi)]
        apply ih
        intro e he
        rcases pqAdd_mem q1 i (gain i) e he with he' | he'
        · rw [he']; exact hgi
        · exact hq _ (hq1 e he')

/-! ## Round and run lemmas -/

lemma npArgmax_lt (l : List ℚ) (b : Nat) (h : npArgmax l = some b) :
    b < l.length := by
  match l with
  | [] => simp [npArgmax] at h
  | x :: xs =>
    rcases npArgmax_spec (x :: xs) (by simp) with ⟨b', hb', hlt, _, _⟩
    rw [h, Option.some_inj] at hb'
    rw [hb']
    exact hlt

/-- Shape of a successful dense round: some index below `n` is
committed to the mask and the ranking, the queue is untouched, and the
freshly written gain vector (of length `n`) becomes the dangling
`gains` local. -/
lemma denseRound_ok {σ : Type} (n : Nat) (dg : σ → Nat → ℚ)
    (up : σ → Nat → σ) (s s' : GState σ)
    (h : denseRound n dg up s = .ok s') :
    ∃ b, b < n ∧ s'.mask = s.mask.set b true ∧
      s'.ranking = s.ranking ++ [b] ∧ s'.pq = s.pq ∧
      s'.lastGains = some (denseSelect n s.mask (dg s.agg)).1 ∧
      s'.agg = up s.agg b := by
  unfold denseRound at h
  split at h
  · rename_i gains b heq
    simp only [Except.ok.injEq] at h
    have hsnd : (denseSelect n s.mask (dg s.agg)).2 = some b := by
      rw [heq]
    have hfst : (denseSelect n s.mask (dg s.agg)).1 = gains := by
      rw [heq]
    have hblt : b < n := by
      have := npArgmax_lt _ b (by simpa [denseSelect] using hsnd)
      simpa [denseSelect] using this
    refine ⟨b, hblt, ?_, ?_, ?_, ?_, ?_⟩ <;> rw [← h]
    · rw [hfst]
  · exact absurd h (by simp)

/-- Shape of a successful lazy round: an index from the queue is
committed, the dangling `gains` local is untouched, and the surviving
queue draws its entries from the incoming queue. -/
lemma lazyRound_ok {σ : Type} (lg : σ → Nat → ℚ) (up : σ → Nat → σ)
    (s s' : GState σ) (h : lazyRound lg up s = .ok s') :
    ∃ b q2, lazyLoop (lg s.agg) (s.pq.length + 1) s.pq 0 none = .ok (b, q2) ∧
      s'.mask = s.mask.set b true ∧ s'.ranking = s.ranking ++ [b] ∧
      s'.pq = q2 ∧ s'.lastGains = s.lastGains ∧ s'.agg = up s.agg b := by
  unfold lazyRound at h
  split at h
  · exact absurd h (by simp)
  · rename_i b q2 heq
    simp only [Except.ok.injEq] at h
    exact ⟨b, q2, heq, by rw [← h], by rw [← h], by rw [← h], by rw [← h],
      by rw [← h]⟩

/-- Committing an in-range index keeps ranking membership and mask
membership identical. -/
lemma commit_membership (mask : List Bool) (r : List Nat) (b : Nat)
    (hb : b < mask.length)
    (hmem : ∀ i, i ∈ r ↔ mask.getD i false = true) :
    ∀ i, i ∈ r ++ [b] ↔ (mask.set b true).getD i false = true := by
  intro i
  by_cases hib : i = b
  · subst hib
    simp only [List.mem_append, List.mem_singleton, or_true, true_iff]
    rw [getD_set_self mask i true false hb]
  · simp only [List.mem_append, List.mem_singleton, hib, or_false]
    rw [getD_set_ne mask b i true false (fun hc => hib hc.symm)]
    exact hmem i

/-- Every seeded queue entry's index is an unmasked position of the
gain vector. -/
lemma seedList_spec (gains : List ℚ) (mask : List Bool) :
    ∀ e ∈ seedList gains mask,
      e.1 < gains.length ∧ mask.getD e.1 false = false := by
  intro e he
  simp only [seedList, List.mem_filterMap, List.mem_range] at he
  rcases he with ⟨i, hi, hif⟩
  by_cases hm : mask.getD i false
  · rw [if_pos hm] at hif
    exact absurd hif (by simp)
  · rw [if_neg hm] at hif
    rw [Option.some_inj] at hif
    rw [← hif]
    exact ⟨hi, by simpa using hm⟩

/-- The run invariant: the mask keeps its length `n`, queue indices are
below `n`, any dangling gain vector has length `n`, and ranking
membership equals mask membership. -/
def InvG {σ : Type} (n : Nat) (s : GState σ) : Prop :=
  s.mask.length = n ∧ (∀ e ∈ s.pq, e.1 < n) ∧
    (∀ gl, s.lastGains = some gl → gl.length = n) ∧
    (∀ i, i ∈ s.ranking ↔ s.mask.getD i false = true)

lemma denseRound_inv {σ : Type} (n : Nat) (dg : σ → Nat → ℚ)
    (up : σ → Nat → σ) (s s' : GState σ) (hs : InvG n s)
    (h : denseRound n dg up s = .ok s') : InvG n s' := by
  rcases denseRound_ok n dg up s s' h with
    ⟨b, hblt, hmask, hrank, hpq, hlg, _⟩
  rcases hs with ⟨hlen, hpqs, _, hmem⟩
  refine ⟨by rw [hmask, List.length_set]; exact hlen, ?_, ?_, ?_⟩
  · rw [hpq]; exact hpqs
  · intro gl hgl
    rw [hlg, Option.some_inj] at hgl
    rw [← hgl]
    exact denseSelect_fst_length n s.mask (dg s.agg)
  · rw [hmask, hrank]
    exact commit_membership s.mask s.ranking b (by rw [hlen]; exact hblt) hmem

lemma seed_inv {σ : Type} (n : Nat) (s s' : GState σ) (hs : InvG n s)
    (h : seed s = .ok s') : InvG n s' := by
  rcases hs with ⟨hlen, _, hlg, hmem⟩
  unfold seed at h
  split at h
  · exact absurd h (by simp)
  · rename_i gains hgains
    simp only [Except.ok.injEq] at h
    rw [← h]
    refine ⟨hlen, ?_, hlg, hmem⟩
    intro e he
    have := (seedList_spec gains s.mask e he).1
    rw [hlg gains hgains] at this
    exact this

lemma lazyRound_inv {σ : Type} (n : Nat) (lg : σ → Nat → ℚ)
    (up : σ → Nat → σ) (s s' : GState σ) (hs : InvG n s)
    (h : lazyRound lg up s = .ok s') : InvG n s' := by
  rcases lazyRound_ok lg up s s' h with
    ⟨b, q2, hloop, hmask, hrank, hpq, hlg, _⟩
  rcases hs with ⟨hlen, hpqs, hlgs, hmem⟩
  have hclose := lazyLoop_closure (lg s.agg) (fun i => i < n)
    (s.pq.length + 1) s.pq 0 none b q2 hpqs (by intro b0 hb0; simp at hb0)
    hloop
  refine ⟨by rw [hmask, List.length_set]; exact hlen, ?_, ?_, ?_⟩
  · rw [hpq]; exact hclose.2
  · rw [hlg]; exact hlgs
  · rw [hmask, hrank]
    exact commit_membership s.mask s.ranking b
      (by rw [hlen]; exact hclose.1) hmem

lemma runRounds_pres {σ : Type} (round : GState σ → Except PyErr (GState σ))
    (P : GState σ → Prop)
    (hstep : ∀ s s', P s → round s = .ok s' → P s') :
    ∀ (m : Nat) (s s' : GState σ), P s →
      runRounds round m s = .ok s' → P s' := by
  intro m
  induction m with
  | zero =>
    intro s s' hP h
    simp only [runRounds, Except.ok.injEq] at h
    rw [← h]; exact hP
  | succ m ih =>
    intro s s' hP h
    simp only [runRounds] at h
    match hr : round s with
    | .error e => rw [hr] at h; exact Except.noConfusion h
    | .ok s1 =>
      rw [hr] at h
      exact ih s1 s' (hstep s s1 hP hr) h

lemma runRounds_len {σ : Type} (round : GState σ → Except PyErr (GState σ))
    (hstep : ∀ s s', round s = .ok s' →
      s'.ranking.length = s.ranking.length + 1) :
    ∀ (m : Nat) (s s' : GState σ), runRounds round m s = .ok s' →
      s'.ranking.length = s.ranking.length + m := by
  intro m
  induction m with
  | zero =>
    intro s s' h
    simp only [runRounds, Except.ok.injEq] at h
    rw [← h]
    omega
  | succ m ih =>
    intro s s' h
    simp only [runRounds] at h
    match hr : round s with
    | .error e => rw [hr] at h; exact Except.noConfusion h
    | .ok s1 =>
      rw [hr] at h
      have := ih s1 s' h
      rw [this, hstep s s1 hr]
      omega

lemma runRounds_total {σ : Type}
    (round : GState σ → Except PyErr (GState σ))
    (htot : ∀ s : GState σ, ∃ s', round s = .ok s') :
    ∀ (m : Nat) (s : GState σ), ∃ s', runRounds round m s = .ok s' := by
  intro m
  induction m with
  | zero => intro s; exact ⟨s, rfl⟩
  | succ m ih =>
    intro s
    rcases htot s with ⟨s1, hs1⟩
    rcases ih s1 with ⟨s', hs'⟩
    refine ⟨s', ?_⟩
    simp only [runRounds, hs1]
    exact hs'

lemma getD_replicate_false (n i : Nat) :
    (List.replicate n false).getD i false = false := by
  rw [List.getD_eq_getElem?_getD, List.getElem?_replicate]
  split <;> rfl

lemma greedyInit_inv {σ : Type} (n : Nat) (a0 : σ) :
    InvG n (greedyInit n a0) := by
  refine ⟨by simp [greedyInit], by simp [greedyInit], by simp [greedyInit], ?_⟩
  intro i
  simp only [greedyInit]
  rw [getD_replicate_false]
  simp

lemma seed_ranking {σ : Type} (s s' : GState σ) (h : seed s = .ok s') :
    s'.ranking = s.ranking ∧ s'.mask = s.mask ∧
      s'.lastGains = s.lastGains ∧ s'.agg = s.agg := by
  unfold seed at h
  split at h
  · exact absurd h (by simp)
  · simp only [Except.ok.injEq] at h
    rw [← h]
    exact ⟨rfl, rfl, rfl, rfl⟩

/-- A successful run of the scheduler yields a state satisfying the
run invariant, with exactly `g + (k - g)` committed selections. -/
lemma greedyRun_ok_spec {σ : Type} (n : Nat) (dg lg : σ → Nat → ℚ)
    (up : σ → Nat → σ) (a0 : σ) (k g : Nat) (s : GState σ)
    (h : greedyRun n dg lg up a0 k g = .ok s) :
    InvG n s ∧ s.ranking.length = g + (k - g) := by
  unfold greedyRun at h
  match h1 : runRounds (denseRound n dg up) g (greedyInit n a0) with
  | .error e => rw [h1] at h; exact Except.noConfusion h
  | .ok s1 =>
    rw [h1] at h
    have h1' : seed s1 >>= runRounds (lazyRound lg up) (k - g) = .ok s := h
    match h2 : seed s1 with
    | .error e => rw [h2] at h1'; exact Except.noConfusion h1'
    | .ok s2 =>
      rw [h2] at h1'
      have h2' : runRounds (lazyRound lg up) (k - g) s2 = .ok s := h1'
      have hi1 : InvG n s1 := runRounds_pres _ (InvG n)
        (fun s s' hs hr => denseRound_inv n dg up s s' hs hr) g
        (greedyInit n a0) s1 (greedyInit_inv n a0) h1
      have hi2 : InvG n s2 := seed_inv n s1 s2 hi1 h2
      have hi : InvG n s := runRounds_pres _ (InvG n)
        (fun s s' hs hr => lazyRound_inv n lg up s s' hs hr) (k - g)
        s2 s hi2 h2'
      have hl1 : s1.ranking.length = g := by
        have := runRounds_len (denseRound n dg up)
          (fun s s' hr => by
            rcases denseRound_ok n dg up s s' hr with ⟨b, _, _, hrank, _⟩
            rw [hrank]
            simp) g (greedyInit n a0) s1 h1
        simpa [greedyInit] using this
      have hl2 : s2.ranking.length = g := by
        rw [(seed_ranking s1 s2 h2).1, hl1]
      have hl : s.ranking.length = g + (k - g) := by
        have := runRounds_len (lazyRound lg up)
          (fun s s' hr => by
            rcases lazyRound_ok lg up s s' hr with ⟨b, q2, _, _, hrank, _⟩
            rw [hrank]
            simp) (k - g) s2 s h2'
        rw [this, hl2]
      exact ⟨hi, hl⟩

/-- Entries of a ranking produced under the run invariant are item
indices below `n`. -/
lemma InvG_ranking_lt {σ : Type} (n : Nat) (s : GState σ) (hs : InvG n s) :
    ∀ i ∈ s.ranking, i < n := by
  rcases hs with ⟨hlen, _, _, hmem⟩
  intro i hi
  by_contra hc
  have hoob : s.mask.getD i false = false :=
    getD_oob s.mask i false (by omega)
  rw [(hmem i).mp hi] at hoob
  simp at hoob

/-- With a nonempty item set, a dense round always succeeds. -/
lemma denseRound_total {σ : Type} (n : Nat) (dg : σ → Nat → ℚ)
    (up : σ → Nat → σ) (hn : 0 < n) (s : GState σ) :
    ∃ s', denseRound n dg up s = .ok s' := by
  rcases denseSelect_snd_spec n s.mask (dg s.agg) hn with ⟨b, hb, _⟩
  unfold denseRound
  rcases hds : denseSelect n s.mask (dg s.agg) with ⟨gains, ob⟩
  have hob : ob = some b := by rw [hds] at hb; simpa using hb
  rw [hob]
  exact ⟨_, rfl⟩

/-- After at least one dense round, the `gains` local is assigned. -/
lemma runRounds_dense_lastGains {σ : Type} (n : Nat) (dg : σ → Nat → ℚ)
    (up : σ → Nat → σ) :
    ∀ (m : Nat) (s s' : GState σ), 1 ≤ m →
      runRounds (denseRound n dg up) m s = .ok s' →
      ∃ gl, s'.lastGains = some gl := by
  intro m
  induction m with
  | zero => intro s s' hm; omega
  | succ m ih =>
    intro s s' _ h
    simp only [runRounds] at h
    match hr : denseRound n dg up s with
    | .error e => rw [hr] at h; exact Except.noConfusion h
    | .ok s1 =>
      rw [hr] at h
      match m with
      | 0 =>
        have h0 : Except.ok (ε := PyErr) s1 = Except.ok s' := h
        simp only [Except.ok.injEq] at h0
        rcases denseRound_ok n dg up s s1 hr with ⟨b, _, _, _, _, hlg, _⟩
        rw [← h0]
        exact ⟨_, hlg⟩
      | m + 1 => exact ih s1 s' (by omega) h

/-- With `n_greedy_samples = k > n` on a nonempty item set, the
scheduler completes all `k` rounds densely and returns a length-`k`
ranking that repeats an index. -/
lemma greedyRun_overshoot_dup {σ : Type} (n : Nat) (dg lg : σ → Nat → ℚ)
    (up : σ → Nat → σ) (a0 : σ) (k : Nat) (hn : 0 < n) (hk : n < k) :
    ∃ s, greedyRun n dg lg up a0 k k = .ok s ∧
      s.ranking.length = k ∧ ¬ s.ranking.Nodup := by
  rcases runRounds_total (denseRound n dg up)
    (denseRound_total n dg up hn) k (greedyInit n a0) with ⟨s1, h1⟩
  rcases runRounds_dense_lastGains n dg up k (greedyInit n a0) s1
    (by omega) h1 with ⟨gl, hgl⟩
  have h2 : seed s1 = .ok { s1 with pq := seedList gl s1.mask } := by
    unfold seed
    rw [hgl]
  have hrun : greedyRun n dg lg up a0 k k =
      .ok { s1 with pq := seedList gl s1.mask } := by
    unfold greedyRun
    rw [h1]
    show seed s1 >>= runRounds (lazyRound lg up) (k - k) =
      .ok { s1 with pq := seedList gl s1.mask }
    rw [h2]
    show runRounds (lazyRound lg up) (k - k)
      { s1 with pq := seedList gl s1.mask } = _
    rw [Nat.sub_self]
    rfl
  rcases greedyRun_ok_spec n dg lg up a0 k k _ hrun with ⟨hinv, hlen⟩
  refine ⟨_, hrun, by rw [hlen]; omega, ?_⟩
  intro hnd
  have hlt := InvG_ranking_lt n _ hinv
  have := nodup_length_le _ n hlt hnd
  rw [hlen] at this
  omega

deriving instance DecidableEq for Except

/-! ## Pointwise descriptions of the numpy expressions -/

lemma getD_map_lt {α β : Type} (l : List α) (f : α → β) (i : Nat)
    (d : β) (d' : α) (h : i < l.length) :
    (l.map f).getD i d = f (l.getD i d') := by
  rw [List.getD_eq_getElem?_getD, List.getElem?_map,
    List.getElem?_eq_getElem h, List.getD_eq_getElem?_getD,
    List.getElem?_eq_getElem h]
  rfl

lemma zipWith_eq_range_map (f : ℚ → ℚ → ℚ) :
    ∀ (xs ys : List ℚ), xs.length = ys.length →
      List.zipWith f xs ys =
        (List.range xs.length).map (fun j => f (xs.getD j 0) (ys.getD j 0)) := by
  intro xs
  induction xs with
  | nil => intro ys _; simp
  | cons x xs ih =>
    intro ys h
    match ys with
    | [] => simp at h
    | y :: ys =>
      simp only [List.zipWith_cons_cons, List.length_cons,
        List.range_succ_eq_map, List.map_cons, List.map_map]
      rw [ih ys (by simpa using h)]
      simp [Function.comp_def, List.getD_cons_succ, List.getD_cons_zero]

lemma flCol_length (S : List (List ℚ)) (i : Nat) :
    (flCol S i).length = S.length := by
  simp [flCol]

lemma flCol_getD (S : List (List ℚ)) (i j : Nat) (h : j < S.length) :
    (flCol S i).getD j 0 = (S.getD j []).getD i 0 :=
  getD_map_lt S _ j 0 [] h

/-- The facility-location gain written by `select_next` is exactly the
spec's sum over all `j` of `max(similarity[j, item], current_values[j])
- current_values[j]`. -/
lemma flGain_formula (S : List (List ℚ)) (cv : List ℚ) (i : Nat)
    (hcv : cv.length = S.length) :
    flGain S cv i = ((List.range S.length).map
      (fun j => max ((S.getD j []).getD i 0) (cv.getD j 0) -
        cv.getD j 0)).sum := by
  unfold flGain
  rw [zipWith_eq_range_map _ (flCol S i) cv (by rw [flCol_length, hcv])]
  rw [flCol_length]
  congr 1
  apply List.map_congr_left
  intro j hj
  rw [List.mem_range] at hj
  rw [flCol_getD S i j hj]

/-- The facility-location aggregate update is the pointwise maximum of
the committed item's similarity column and the previous aggregate. -/
lemma flUpdate_getD (S : List (List ℚ)) (cv : List ℚ) (b j : Nat)
    (hcv : cv.length = S.length) (hj : j < S.length) :
    (flUpdate S cv b).getD j 0 =
      max ((S.getD j []).getD b 0) (cv.getD j 0) := by
  unfold flUpdate
  rw [zipWith_eq_range_map max (flCol S b) cv (by rw [flCol_length, hcv])]
  rw [flCol_length]
  rw [getD_range_map _ S.length j 0 hj]
  rw [flCol_getD S b j hj]

lemma dotRow_comm (r1 r2 : List ℚ) : dotRow r1 r2 = dotRow r2 r1 := by
  unfold dotRow
  rw [List.zipWith_comm_of_comm _ mul_comm]

lemma dotRow_nonneg : ∀ (r1 r2 : List ℚ), (∀ x ∈ r1, 0 ≤ x) →
    (∀ x ∈ r2, 0 ≤ x) → 0 ≤ dotRow r1 r2 := by
  intro r1
  induction r1 with
  | nil => intro r2 _ _; simp [dotRow]
  | cons x xs ih =>
    intro r2 h1 h2
    match r2 with
    | [] => simp [dotRow]
    | y :: ys =>
      simp only [dotRow, List.zipWith_cons_cons, List.sum_cons]
      refine add_nonneg (mul_nonneg (h1 x (by simp)) (h2 y (by simp))) ?_
      exact ih ys (fun z hz => h1 z (by simp [hz]))
        (fun z hz => h2 z (by simp [hz]))

lemma rowNorm_nonneg (r : List ℚ) : 0 ≤ rowNorm r := by
  unfold rowNorm
  apply List.sum_nonneg
  intro a ha
  rw [List.mem_map] at ha
  rcases ha with ⟨x, _, hx⟩
  rw [← hx]
  exact mul_self_nonneg x

lemma fillDiagonal_length (M : List (List ℚ)) :
    (fillDiagonal M).length = M.length := by
  simp [fillDiagonal]

lemma fillDiagonal_getD_row (M : List (List ℚ)) (i : Nat)
    (h : i < M.length) :
    (fillDiagonal M).getD i [] = (M.getD i []).set i 0 := by
  unfold fillDiagonal
  rw [List.getD_eq_getElem?_getD, List.getElem?_map]
  rw [List.getElem?_eq_getElem (by simpa using h)]
  simp only [Option.map_some', Option.getD_some]
  rw [List.getElem_enum]
  rw [List.getD_eq_getElem?_getD, List.getElem?_eq_getElem h]
  rfl

/-- After `fill_diagonal`, every diagonal entry reads zero. -/
lemma entry_fillDiagonal_diag (M : List (List ℚ)) (i : Nat) :
    entry (fillDiagonal M) i i = 0 := by
  unfold entry
  by_cases h : i < M.length
  · rw [fillDiagonal_getD_row M i h]
    by_cases h2 : i < (M.getD i []).length
    · rw [getD_set_self _ i 0 0 h2]
    · rw [getD_oob _ i 0 (by rw [List.length_set]; omega)]
  · rw [getD_oob _ i [] (by rw [fillDiagonal_length]; omega)]
    rfl

/-- Off the diagonal, `fill_diagonal` keeps the kernel's entries. -/
lemma entry_fillDiagonal_off (M : List (List ℚ)) (i j : Nat) (hij : i ≠ j) :
    entry (fillDiagonal M) i j = entry M i j := by
  unfold entry
  by_cases h : i < M.length
  · rw [fillDiagonal_getD_row M i h, getD_set_ne _ i j 0 0 hij]
  · rw [getD_oob _ i [] (by rw [fillDiagonal_length]; omega),
      getD_oob _ i [] (by omega)]

lemma entry_cosineKernel (X : List (List ℚ)) (i j : Nat)
    (hi : i < X.length) (hj : j < X.length) :
    entry (cosineKernel X) i j = dotRow (X.getD i []) (X.getD j []) /
      (rowNorm (X.getD i []) * rowNorm (X.getD j [])) := by
  unfold entry cosineKernel
  rw [getD_map_lt X _ i [] [] hi]
  rw [getD_map_lt X _ j 0 [] hj]

lemma entry_euclideanKernel (X : List (List ℚ)) (i j : Nat)
    (hi : i < X.length) (hj : j < X.length) :
    entry (euclideanKernel X) i j = 2 * dotRow (X.getD i []) (X.getD j []) +
      rowNorm (X.getD i []) - rowNorm (X.getD j []) := by
  unfold entry euclideanKernel
  rw [getD_map_lt X _ i [] [] hi]
  rw [getD_map_lt X _ j 0 [] hj]

/-! ## Claims -/

/-- C1 counterexample: for the dataset `[[0,1],[1,0]]` and `k = 2`,
the pure-dense run (`n_greedy_samples = k`) returns the ranking
`[0, 1]`, while the pure-lazy run (`n_greedy_samples = 0`) does not
return a ranking at all: the queue-seeding loop reads the local
`gains`, which the zero-iteration dense loop never assigned, and the
call dies with a `NameError`.  The two settings therefore do not
produce identical rankings. -/
theorem claim_C1_counterexample :
    flFitPairwise [[0, 1], [1, 0]] 2 2 = .ok [0, 1] ∧
      flFitPairwise [[0, 1], [1, 0]] 2 0 = .error .nameError := by
  with_unfolding_all decide

/-- C1 amended: with `n_greedy_samples = 0` the call never produces a
ranking: for every dataset (and, for the feature-based objective, every
dataset passing the negativity check), `fit` fails with `NameError`
when the seeding loop reads the unassigned `gains` local, for the
facility-location objective and for every feature-based branch; so the
claimed lazy/dense ranking equivalence cannot hold at
`n_greedy_samples = 0`. -/
theorem claim_C1_amended :
    (∀ (S : List (List ℚ)) (k : Nat),
      flFitPairwise S k 0 = .error .nameError) ∧
    (∀ (phi : ℚ → ℚ) (X : List (List ℚ)) (k : Nat), fbHasNeg X = false →
      fbFitPhi phi X k 0 = .error .nameError ∧
        fbFitMin X k 0 = .error .nameError) := by
  constructor
  · intro S k
    rfl
  · intro phi X k hneg
    constructor
    · unfold fbFitPhi fbRunPhi
      rw [hneg]
      rfl
    · unfold fbFitMin fbRunMin
      rw [hneg]
      rfl

/-- C1 amended, witness at a concrete input. -/
theorem claim_C1_amended_witness :
    fbFitPhi (fun x => x) [[1]] 1 0 = .error .nameError ∧
      fbFitMin [[1]] 1 0 = .error .nameError :=
  claim_C1_amended.2 (fun x => x) [[1]] 1 (by with_unfolding_all decide)

/-- C3 counterexample: with the zero similarity matrix, zero aggregate
and item 0 already selected, the dense kernel's gain vector is
identically zero and `numpy.argmax` over the full vector returns the
already-selected index 0 — a selected item can be the round's choice. -/
theorem claim_C3_counterexample :
    (select_next [[0, 0], [0, 0]] [0, 0] [true, false]).2 = some 0 ∧
      [true, false].getD 0 false = true := by
  with_unfolding_all decide

/-- C3 amended: the dense kernels take `argmax` over the full gain
vector, in which selected items' slots are held at 0.  Whenever some
unselected item has strictly positive gain, the returned index is an
unselected item attaining the maximal gain among unselected items, and
it is the smallest such index; when every unselected gain is
non-positive, the returned index may be an already-selected item. -/
theorem claim_C3_amended :
    ∀ (n : Nat) (mask : List Bool) (g : Nat → ℚ) (i0 : Nat),
      i0 < n → mask.getD i0 false = false → 0 < g i0 →
      ∃ b, (denseSelect n mask g).2 = some b ∧
        mask.getD b false = false ∧
        (∀ j < n, mask.getD j false = false → g j ≤ g b) ∧
        (∀ j < b, mask.getD j false = false → g j < g b) := by
  intro n mask g i0 h1 h2 h3
  rcases denseSelect_pos_spec n mask g i0 h1 h2 h3 with
    ⟨b, hb, _, hbm, hmax, hfirst⟩
  exact ⟨b, hb, hbm, hmax, hfirst⟩

/-- C3 amended, witness at a concrete input. -/
theorem claim_C3_amended_witness :
    ∃ b, (denseSelect 1 [false] (fun _ => (1 : ℚ))).2 = some b ∧
      [false].getD b false = false := by
  rcases claim_C3_amended 1 [false] (fun _ => (1 : ℚ)) 0 (by omega)
    (by decide) (by norm_num) with ⟨b, hb, hbm, _, _⟩
  exact ⟨b, hb, hbm⟩

/-- C4 confirmed: for the facility-location objective, the gain the
dense kernel `select_next` writes for an unselected item `i` is the sum
over every `j` in the full item universe of
`max(similarity[j, i], current_values[j]) - current_values[j]` (the
lazy recomputation, lines 165–166, evaluates the identical `flGain`),
and the committed update sets `current_values[j]` to
`max(current_values[j], similarity[j, best])` for every `j`. -/
theorem claim_C4 :
    ∀ (S : List (List ℚ)) (cv : List ℚ) (mask : List Bool) (i b j : Nat),
      cv.length = S.length →
      (i < S.length → mask.getD i false = false →
        (select_next S cv mask).1.getD i 0 =
          ((List.range S.length).map
            (fun j2 => max ((S.getD j2 []).getD i 0) (cv.getD j2 0) -
              cv.getD j2 0)).sum) ∧
      (j < S.length →
        (flUpdate S cv b).getD j 0 =
          max ((S.getD j []).getD b 0) (cv.getD j 0)) := by
  intro S cv mask i b j hcv
  constructor
  · intro hi hm
    unfold select_next
    rw [denseSelect_fst_getD S.length mask (flGain S cv) i hi, hm]
    simp only [Bool.false_eq_true, if_false]
    exact flGain_formula S cv i hcv
  · intro hj
    exact flUpdate_getD S cv b j hcv hj

/-- C4, witness at a concrete input. -/
theorem claim_C4_witness :
    (select_next [[0, 1], [1, 0]] [0, 0] [false, false]).1.getD 0 0 =
      ((List.range 2).map
        (fun j2 => max (([[(0 : ℚ), 1], [1, 0]].getD j2 []).getD 0 0)
          ([0, 0].getD j2 0) - [0, 0].getD j2 0)).sum ∧
    (flUpdate [[0, 1], [1, 0]] [0, 0] 0).getD 1 0 =
      max (([[(0 : ℚ), 1], [1, 0]].getD 1 []).getD 0 0) ([0, 0].getD 1 0) := by
  rcases claim_C4 [[0, 1], [1, 0]] [0, 0] [false, false] 0 0 1 (by decide)
    with ⟨h1, h2⟩
  exact ⟨h1 (by decide) (by decide), h2 (by decide)⟩

/-- C5: the claim describes the gain as
`min(current_values[f] + X[item, f], 1) - current_concave_values[f]`,
which matches the `'min'` concave function and the lazy-phase
recomputation, but the dense kernel `select_min_next` computes
`fmin(current_values, X[item]) - current_concave_values` instead: it
neither adds the candidate row to the aggregate nor caps at one.  At
`X = [[2]]` in the first round (zero aggregate) the kernel writes gain
`0` while the claimed formula gives `min(0 + 2, 1) - 0 = 1`. -/
theorem claim_C5_eval :
    (select_min_next [[2]] [0] [0] [false]).1 = [0] ∧
      min ((0 : ℚ) + 2) 1 - 0 = 1 ∧ (0 : ℚ) ≠ 1 := by
  with_unfolding_all decide

/-- C6: `select_custom_next` is supposed to fill the gain vector and
return the first unselected argmax like the named kernels, but the
update of its running best executes `best_gain = gain`, reading the
unbound local `gain`: on the very first unselected candidate whose
gain exceeds 0 the call raises `NameError`.  At `X = [[1]]` with the
identity concave function the helper fails, while the named-kernel
selection on the same gain function returns index 0. -/
theorem claim_C6_eval :
    select_custom_next [[1]] (fun x => x) [0] [0] [false] =
        .error .nameError ∧
      (denseSelect 1 [false]
        (fbPhiGain (fun x => x) [[1]] ([0], [0]))).2 = some 0 := by
  with_unfolding_all decide

/-- C7 confirmed: for every concave function, every `k` and every
`n_greedy_samples`, a feature-based fit on a dataset containing a
negative entry fails with the input-domain `ValueError` — the check is
the first step of `fit`, before any round runs, so no selection state
is committed. -/
theorem claim_C7 :
    ∀ (phi : ℚ → ℚ) (X : List (List ℚ)) (k g : Nat),
      (∃ row ∈ X, ∃ x ∈ row, x < 0) →
      fbFitPhi phi X k g = .error .valueErrorNegative ∧
        fbFitMin X k g = .error .valueErrorNegative := by
  intro phi X k g hneg
  have hb : fbHasNeg X = true := by
    rw [fbHasNeg, List.any_eq_true]
    rcases hneg with ⟨row, hrow, x, hx, hxneg⟩
    refine ⟨row, hrow, ?_⟩
    rw [List.any_eq_true]
    exact ⟨x, hx, by simpa using hxneg⟩
  constructor
  · unfold fbFitPhi fbRunPhi
    rw [hb]
    rfl
  · unfold fbFitMin fbRunMin
    rw [hb]
    rfl

/-- C7, witness at a concrete input. -/
theorem claim_C7_witness :
    fbFitPhi (fun x => x) [[-1]] 1 1 = .error .valueErrorNegative ∧
      fbFitMin [[-1]] 1 1 = .error .valueErrorNegative :=
  claim_C7 (fun x => x) [[-1]] 1 1
    ⟨[-1], by simp, -1, by simp, by norm_num⟩

/-- C8 counterexample: with `n = 2 < k = 3` and
`n_greedy_samples = 3 ≥ k`, the facility-location fit does not fail
with `EmptyQueue`: all three rounds run densely and the call returns
the repetition-containing ranking `[0, 1, 0]`. -/
theorem claim_C8_counterexample :
    flFitPairwise [[0, 1], [1, 0]] 3 3 = .ok [0, 1, 0] ∧
      ¬ ([0, 1, 0] : List Nat).Nodup := by
  with_unfolding_all decide

/-- C8 amended: when `k > n` and the overflow rounds fall in the dense
phase (`n_greedy_samples = k`), fit returns — for a nonempty dataset,
under the facility-location objective and every named feature-based
transform (the `'sqrt'`/`'log'`/`'inverse'` kernels and the `'min'`
kernel) — a length-`k` ranking that necessarily repeats an index,
instead of failing; `EmptyQueue` arises only when a lazy round pops
from an exhausted queue.  In the caller-supplied-concave branch no
ranking is returned at all: its dense kernel raises `NameError` on the
first strictly positive gain (last conjunct: `phi = (· + 1)`,
`X = [[1]]`, empty mask), so the dense overflow never completes
there. -/
theorem claim_C8_amended :
    (∀ (S : List (List ℚ)) (k : Nat), 0 < S.length → S.length < k →
      ∃ r, flFitPairwise S k k = .ok r ∧ r.length = k ∧ ¬ r.Nodup) ∧
    (∀ (phi : ℚ → ℚ) (X : List (List ℚ)) (k : Nat), fbHasNeg X = false →
      0 < X.length → X.length < k →
      ∃ r, fbFitPhi phi X k k = .ok r ∧ r.length = k ∧ ¬ r.Nodup) ∧
    (∀ (X : List (List ℚ)) (k : Nat), fbHasNeg X = false →
      0 < X.length → X.length < k →
      ∃ r, fbFitMin X k k = .ok r ∧ r.length = k ∧ ¬ r.Nodup) ∧
    select_custom_next [[1]] (fun x => x + 1) [0] [0] [false] =
      .error .nameError := by
  refine ⟨?_, ?_, ?_, by with_unfolding_all decide⟩
  · intro S k hn hk
    rcases greedyRun_overshoot_dup S.length (flGain S) (flGain S)
      (flUpdate S) (List.replicate S.length 0) k hn hk with
      ⟨s, hs, hlen, hnd⟩
    refine ⟨s.ranking, ?_, hlen, hnd⟩
    unfold flFitPairwise flRun
    rw [hs]
    rfl
  · intro phi X k hneg hn hk
    rcases greedyRun_overshoot_dup X.length (fbPhiGain phi X)
      (fbPhiGain phi X) (fbUpdate phi X) (fbAgg0 X) k hn hk with
      ⟨s, hs, hlen, hnd⟩
    refine ⟨s.ranking, ?_, hlen, hnd⟩
    unfold fbFitPhi fbRunPhi
    rw [hneg]
    simp only [Bool.false_eq_true, if_false]
    rw [hs]
    rfl
  · intro X k hneg hn hk
    rcases greedyRun_overshoot_dup X.length (fbMinDenseGain X)
      (fbPhiGain phiMin X) (fbUpdate phiMin X) (fbAgg0 X) k hn hk with
      ⟨s, hs, hlen, hnd⟩
    refine ⟨s.ranking, ?_, hlen, hnd⟩
    unfold fbFitMin fbRunMin
    rw [hneg]
    simp only [Bool.false_eq_true, if_false]
    rw [hs]
    rfl

/-- C8 amended, witness at a concrete input. -/
theorem claim_C8_amended_witness :
    ∃ r, flFitPairwise [[0, 1], [1, 0]] 3 3 = .ok r ∧ r.length = 3 ∧
      ¬ r.Nodup :=
  claim_C8_amended.1 [[0, 1], [1, 0]] 3 (by simp) (by simp)

/-- C9 counterexample: under the `'euclidean'` kernel the similarity
matrix used for selection is not symmetric and has a negative entry:
for `X = [[0],[1]]` the preprocessed matrix is `[[0,-1],[1,0]]`, whose
`(0,1)` entry is `-1 ≠ 1 =` its `(1,0)` entry. -/
theorem claim_C9_counterexample :
    preprocessEuclidean [[0], [1]] = [[0, -1], [1, 0]] ∧
      entry (preprocessEuclidean [[0], [1]]) 0 1 = -1 ∧
      entry (preprocessEuclidean [[0], [1]]) 1 0 = 1 := by
  with_unfolding_all decide

lemma getD_mem {α : Type} (l : List α) (i : Nat) (d : α)
    (h : i < l.length) : l.getD i d ∈ l := by
  rw [List.getD_eq_getElem?_getD, List.getElem?_eq_getElem h]
  simp [List.getElem_mem]

lemma cosineKernel_length (X : List (List ℚ)) :
    (cosineKernel X).length = X.length := by
  simp [cosineKernel]

lemma entry_cosineKernel_oob (X : List (List ℚ)) (i j : Nat)
    (h : ¬ (i < X.length ∧ j < X.length)) :
    entry (cosineKernel X) i j = 0 := by
  unfold entry
  by_cases hi : i < X.length
  · have hj : ¬ j < X.length := fun hj => h ⟨hi, hj⟩
    unfold cosineKernel
    rw [getD_map_lt X _ i [] [] hi]
    rw [getD_oob _ j 0 (by simpa using not_lt.mp hj)]
  · rw [getD_oob _ i [] (by rw [cosineKernel_length]; omega)]
    rfl

lemma entry_preprocessCosine_symm (X : List (List ℚ)) (i j : Nat) :
    entry (preprocessCosine X) i j = entry (preprocessCosine X) j i := by
  by_cases hij : i = j
  · rw [hij]
  · unfold preprocessCosine
    rw [entry_fillDiagonal_off _ i j hij,
      entry_fillDiagonal_off _ j i (fun hc => hij hc.symm)]
    by_cases hi : i < X.length
    · by_cases hj : j < X.length
      · rw [entry_cosineKernel X i j hi hj, entry_cosineKernel X j i hj hi,
          dotRow_comm, mul_comm]
      · rw [entry_cosineKernel_oob X i j (fun hc => hj hc.2),
          entry_cosineKernel_oob X j i (fun hc => hj hc.1)]
    · rw [entry_cosineKernel_oob X i j (fun hc => hi hc.1),
        entry_cosineKernel_oob X j i (fun hc => hi hc.2)]

lemma entry_preprocessCosine_nonneg (X : List (List ℚ))
    (hX : ∀ row ∈ X, ∀ x ∈ row, 0 ≤ x) (i j : Nat) :
    0 ≤ entry (preprocessCosine X) i j := by
  by_cases hij : i = j
  · rw [hij]
    unfold preprocessCosine
    rw [entry_fillDiagonal_diag]
  · unfold preprocessCosine
    rw [entry_fillDiagonal_off _ i j hij]
    by_cases hi : i < X.length
    · by_cases hj : j < X.length
      · rw [entry_cosineKernel X i j hi hj]
        apply div_nonneg
        · apply dotRow_nonneg
          · intro x hx
            exact hX _ (getD_mem _ _ _ (by omega)) x hx
          · intro x hx
            exact hX _ (getD_mem _ _ _ (by omega)) x hx
        · exact mul_nonneg (rowNorm_nonneg _) (rowNorm_nonneg _)
      · rw [entry_cosineKernel_oob X i j (fun hc => hj hc.2)]
    · rw [entry_cosineKernel_oob X i j (fun hc => hi hc.1)]

/-- C9 amended: after the `fill_diagonal` preprocessing every diagonal
entry is zero, for any kernel output.  On feature matrices all of
whose rows have nonzero squared norm — for zero-norm rows numpy's
division produces `nan` entries, where no matrix contract holds and
the ℚ embedding is not faithful — the `'cosine'` kernel's preprocessed
matrix is symmetric, and entrywise non-negative whenever the raw
feature matrix is entrywise non-negative.  The `'euclidean'` kernel
however produces (before diagonal zeroing) the matrix with entries
`2⟨x_i, x_j⟩ + ‖x_i‖² - ‖x_j‖²`, which is neither symmetric nor
non-negative in general (the counterexample exhibits an asymmetric
negative entry). -/
theorem claim_C9_amended :
    (∀ (M : List (List ℚ)) (i : Nat), entry (fillDiagonal M) i i = 0) ∧
    (∀ (X : List (List ℚ)), (∀ row ∈ X, rowNorm row ≠ 0) →
      ∀ i j, entry (preprocessCosine X) i j =
        entry (preprocessCosine X) j i) ∧
    (∀ (X : List (List ℚ)), (∀ row ∈ X, rowNorm row ≠ 0) →
      (∀ row ∈ X, ∀ x ∈ row, 0 ≤ x) →
      ∀ i j, 0 ≤ entry (preprocessCosine X) i j) ∧
    (∀ (X : List (List ℚ)) (i j : Nat), i < X.length → j < X.length →
      entry (euclideanKernel X) i j =
        2 * dotRow (X.getD i []) (X.getD j []) + rowNorm (X.getD i []) -
          rowNorm (X.getD j [])) :=
  ⟨entry_fillDiagonal_diag,
    fun X _ i j => entry_preprocessCosine_symm X i j,
    fun X _ hX i j => entry_preprocessCosine_nonneg X hX i j,
    entry_euclideanKernel⟩

/-- C9 amended, witness at a concrete input (every row of the cosine
input has norm 1). -/
theorem claim_C9_amended_witness :
    entry (fillDiagonal [[5]]) 0 0 = 0 ∧
      entry (preprocessCosine [[1, 0], [0, 1]]) 0 1 =
        entry (preprocessCosine [[1, 0], [0, 1]]) 1 0 ∧
      0 ≤ entry (preprocessCosine [[1, 0], [0, 1]]) 0 1 ∧
      entry (euclideanKernel [[0], [1]]) 0 1 =
        2 * dotRow [0] [1] + rowNorm [0] - rowNorm [1] :=
  ⟨claim_C9_amended.1 [[5]] 0,
    claim_C9_amended.2.1 [[1, 0], [0, 1]]
      (by with_unfolding_all decide) 0 1,
    claim_C9_amended.2.2.1 [[1, 0], [0, 1]]
      (by with_unfolding_all decide) (by with_unfolding_all decide) 0 1,
    claim_C9_amended.2.2.2 [[0], [1]] 0 1 (by simp) (by simp)⟩

/-- C10 confirmed (the priority queue is modelled from the spec): in
every lazy round, of either objective, the committed item's freshly
recomputed marginal gain — evaluated against the aggregate the round
started with — is strictly positive; and when every queued candidate's
recomputed gain is non-positive at the start of a lazy round, no item
is confirmed: the whole remaining lazy phase fails, so fit cannot
return a ranking. -/
theorem claim_C10 :
    (∀ {σ : Type} (lg : σ → Nat → ℚ) (up : σ → Nat → σ)
        (s s' : GState σ), lazyRound lg up s = .ok s' →
      ∃ b, s'.ranking = s.ranking ++ [b] ∧ 0 < lg s.agg b) ∧
    (∀ {σ : Type} (lg : σ → Nat → ℚ) (up : σ → Nat → σ)
        (s : GState σ) (m : Nat), (∀ e ∈ s.pq, lg s.agg e.1 ≤ 0) →
      ∃ er, runRounds (lazyRound lg up) (m + 1) s = .error er) := by
  constructor
  · intro σ lg up s s' h
    rcases lazyRound_ok lg up s s' h with ⟨b, q2, hloop, _, hrank, _⟩
    exact ⟨b, hrank, (lazyLoop_pos (lg s.agg) (s.pq.length + 1) s.pq 0 none
      b q2 (Or.inl ⟨rfl, rfl⟩) hloop)⟩
  · intro σ lg up s m hq
    rcases lazyLoop_nonpos (lg s.agg) (s.pq.length + 1) s.pq hq with
      ⟨er, herr⟩
    have hr : lazyRound lg up s = .error er := by
      unfold lazyRound
      rw [herr]
    refine ⟨er, ?_⟩
    simp only [runRounds]
    rw [hr]
    rfl

/-- C10, witness at concrete facility-location lazy rounds: one round
that commits item 0 with recomputed gain 1 > 0, and one all-saturated
round (every queued candidate's recomputed gain is 0) that fails. -/
theorem claim_C10_witness :
    (∃ b, (⟨[true, false], [0], [(1, (1 : ℚ))], none, [0, 1]⟩ :
        GState (List ℚ)).ranking =
      (⟨[false, false], [], [(0, 1), (1, 1)], none, [0, 0]⟩ :
        GState (List ℚ)).ranking ++ [b] ∧
      0 < flGain [[0, 1], [1, 0]] [0, 0] b) ∧
    (∃ er, runRounds
      (lazyRound (flGain [[0, 1], [1, 0]]) (flUpdate [[0, 1], [1, 0]])) 1
      ⟨[true, false], [0], [(1, 5)], none, [1, 1]⟩ = .error er) :=
  ⟨claim_C10.1 (flGain [[0, 1], [1, 0]]) (flUpdate [[0, 1], [1, 0]])
      ⟨[false, false], [], [(0, 1), (1, 1)], none, [0, 0]⟩
      ⟨[true, false], [0], [(1, 1)], none, [0, 1]⟩
      (by with_unfolding_all decide),
    claim_C10.2 (flGain [[0, 1], [1, 0]]) (flUpdate [[0, 1], [1, 0]])
      ⟨[true, false], [0], [(1, 5)], none, [1, 1]⟩ 0
      (by with_unfolding_all decide)⟩
